import Mathlib

set_option maxHeartbeats 1000000
set_option autoImplicit false

/-
Shallow embedding of `src/docx/shape.py` (python-docx fork):
  * `InlineShapes` — indexed access over the xpath match list,
  * `InlineShape` — width/height synchronized writes and type classification,
  * `Textbox` — the semicolon-delimited `style` attribute micro-format.
Python strings are modelled as `List Char`; Python float values as `ℚ`
(the style micro-format only ever holds plain decimal literals).
-/

abbrev PyStr := List Char

def toL (s : String) : PyStr := s.data

/-- Python ASCII whitespace, as removed by `str.strip()` (the unicode
whitespace code points never occur in the style micro-format). -/
def isPySpace (c : Char) : Bool :=
  c == ' ' || c == '\t' || c == '\n' || c == '\r' || c == '\x0b' || c == '\x0c'

/-- Left part of Python `str.strip()`. -/
def lstripW (s : PyStr) : PyStr := s.dropWhile isPySpace

/-- Right part of Python `str.strip()`. -/
def rstripW (s : PyStr) : PyStr := (s.reverse.dropWhile isPySpace).reverse

/-- Python `str.strip()`. -/
def pyStrip (s : PyStr) : PyStr := lstripW (rstripW s)

/-- Python `s.startswith(pat)`. -/
def pyStarts (pat s : PyStr) : Bool :=
  match pat, s with
  | [], _ => true
  | _ :: _, [] => false
  | a :: pa, b :: sb => a == b && pyStarts pa sb

/-- Python `s.split(sep)` for a one-character separator (keeps empty
fragments; `"".split(";") == [""]`). -/
def splitChar (c : Char) : PyStr → List PyStr
  | [] => [[]]
  | a :: rest =>
    if a == c then [] :: splitChar c rest
    else
      match splitChar c rest with
      | [] => [[a]]
      | h :: t => (a :: h) :: t

/-- Leftmost occurrence of `pat` in `s`: the text before it and the text
after it.  `none` when `pat` does not occur (`pat` is always nonempty at
call sites, mirroring Python which rejects an empty separator). -/
def splitFirst (pat : PyStr) : PyStr → Option (PyStr × PyStr)
  | [] => none
  | c :: s =>
    if pyStarts pat (c :: s) then some ([], (c :: s).drop pat.length)
    else
      match splitFirst pat s with
      | some pr => some (c :: pr.1, pr.2)
      | none => none

/-- Python `pat in s` for nonempty `pat`. -/
def occursB (pat s : PyStr) : Bool := (splitFirst pat s).isSome

def pySplitF (pat : PyStr) : Nat → PyStr → List PyStr
  | 0, s => [s]
  | fuel + 1, s =>
    match splitFirst pat s with
    | none => [s]
    | some pr => pr.1 :: pySplitF pat fuel pr.2

/-- Python `s.split(pat)` for a nonempty separator string. -/
def pySplit (pat s : PyStr) : List PyStr := pySplitF pat (s.length + 1) s

/-- Python `s.replace(pat, "")` for nonempty `pat` (equals
`"".join(s.split(pat))`). -/
def removeAll (pat s : PyStr) : PyStr := (pySplit pat s).flatten

/-- Python `sep.join(parts)`. -/
def joinSep (sep : PyStr) : List PyStr → PyStr
  | [] => []
  | [x] => x
  | x :: y :: ys => x ++ sep ++ joinSep sep (y :: ys)

def digitsToNat : Nat → PyStr → Nat
  | acc, [] => acc
  | acc, c :: cs => digitsToNat (acc * 10 + (c.toNat - '0'.toNat)) cs

/-- Unsigned decimal literal `digits [ "." digits ]` with at least one
digit, as accepted by Python `float`; the value of `ip.fp` is the digit
string `ip ++ fp` over `10 ^ |fp|`. -/
def parseDec (s : PyStr) : Option ℚ :=
  let ip := s.takeWhile Char.isDigit
  let rest := s.dropWhile Char.isDigit
  match rest with
  | [] => if ip.isEmpty then none else some (mkRat (digitsToNat 0 ip) 1)
  | '.' :: fp =>
    if fp.all Char.isDigit && !(ip.isEmpty && fp.isEmpty) then
      some (mkRat (digitsToNat 0 (ip ++ fp)) (10 ^ fp.length))
    else none
  | _ => none

/-- Python `float(s)` restricted to the plain signed decimal forms the
style micro-format produces (no exponents, `inf`/`nan` or underscores);
`none` models `ValueError`. -/
def pyParseFloat (s : PyStr) : Option ℚ :=
  match pyStrip s with
  | '-' :: r => (parseDec r).map Rat.neg
  | '+' :: r => parseDec r
  | t => parseDec t

/-- `True` when the fragment holds a `key:value` pair (contains a colon). -/
def hasColon (f : PyStr) : Bool := f.any (fun c => c == ':')

/-- The key of a `key:value` fragment: the text before the first colon. -/
def keyOf (f : PyStr) : PyStr := f.takeWhile (fun c => !(c == ':'))

/-- Number of `key:value` pairs of the raw style string whose key equals
`k` (parse: split on `;`, a fragment containing `:` is a pair, its key is
the text before the first `:`). -/
def countKeyPairs (s k : PyStr) : Nat :=
  ((splitChar ';' s).filter (fun f => hasColon f && (keyOf f == k))).length

/-- The trimmed nonempty fragments of a style string, exactly as computed
by the first line of `Textbox._update_style_property`. -/
def parsedParts (s : PyStr) : List PyStr :=
  ((splitChar ';' s).map pyStrip).filter (fun p => !p.isEmpty)

/- ------------------------------------------------------------------ -/
/- Inline shape data model.

The element classes (`CT_Inline`, `CT_Extent`, `CT_Picture`, ...) live in
`docx.oxml.shape`, outside `src/`.  Modelled from the spec: an inline
graphic has an `extent` sub-node with `cx`/`cy`, and a nested
`graphic/graphicData` carrying the `uri` discriminator and, for pictures,
an optional `pic` sub-tree with `spPr` size fields and a `blipFill/blip`
image reference whose `link` attribute marks a linked picture.  Optional
sub-trees are `Option`; navigating into an absent one raises in Python,
which the accessors below surface as an error value. -/

structure CT_Blip where
  link : Option String
  deriving DecidableEq

structure CT_BlipFillProperties where
  blip : Option CT_Blip
  deriving DecidableEq

structure CT_ShapeProperties where
  cx : Int
  cy : Int
  deriving DecidableEq

structure CT_Picture where
  blipFill : Option CT_BlipFillProperties
  spPr : Option CT_ShapeProperties
  deriving DecidableEq

structure CT_GraphicalObjectData where
  uri : String
  pic : Option CT_Picture
  deriving DecidableEq

structure CT_Graphic where
  graphicData : CT_GraphicalObjectData
  deriving DecidableEq

structure CT_Extent where
  cx : Int
  cy : Int
  deriving DecidableEq

structure CT_Inline where
  extent : CT_Extent
  graphic : CT_Graphic
  deriving DecidableEq

/-- Modelled from the spec: the namespace URIs behind `nsmap["pic"]`,
`nsmap["c"]` and `nsmap["dgm"]` (`docx.oxml.ns` is outside `src/`). -/
def nsmap_pic : String := "http://schemas.openxmlformats.org/drawingml/2006/picture"

def nsmap_c : String := "http://schemas.openxmlformats.org/drawingml/2006/chart"

def nsmap_dgm : String := "http://schemas.openxmlformats.org/drawingml/2006/diagram"

inductive WD_INLINE_SHAPE where
  | CHART
  | LINKED_PICTURE
  | NOT_IMPLEMENTED
  | PICTURE
  | SMART_ART
  deriving DecidableEq

/-- `InlineShape.width` getter: `return self._inline.extent.cx`. -/
def InlineShape.width (inl : CT_Inline) : Int := inl.extent.cx

/-- `InlineShape.height` getter: `return self._inline.extent.cy`. -/
def InlineShape.height (inl : CT_Inline) : Int := inl.extent.cy

/-- `InlineShape.width` setter.  The two Python statements run in order:
`self._inline.extent.cx = cx` mutates the tree first, then
`self._inline.graphic.graphicData.pic.spPr.cx = cx` is attempted; if the
`pic` (or `spPr`) sub-tree is absent that second statement raises, and
the already-mutated tree is returned alongside the error. -/
def InlineShape.setWidth (inl : CT_Inline) (cx : Int) : Option String × CT_Inline :=
  let inl1 : CT_Inline := { inl with extent := { inl.extent with cx := cx } }
  match inl1.graphic.graphicData.pic with
  | none => (some "MalformedGraphicTree", inl1)
  | some pic =>
    match pic.spPr with
    | none => (some "MalformedGraphicTree", inl1)
    | some sp =>
      (none,
        { inl1 with
          graphic :=
            { graphicData :=
                { inl1.graphic.graphicData with
                  pic := some { pic with spPr := some { sp with cx := cx } } } } })

/-- `InlineShape.height` setter; same two-statement sequence on `cy`. -/
def InlineShape.setHeight (inl : CT_Inline) (cy : Int) : Option String × CT_Inline :=
  let inl1 : CT_Inline := { inl with extent := { inl.extent with cy := cy } }
  match inl1.graphic.graphicData.pic with
  | none => (some "MalformedGraphicTree", inl1)
  | some pic =>
    match pic.spPr with
    | none => (some "MalformedGraphicTree", inl1)
    | some sp =>
      (none,
        { inl1 with
          graphic :=
            { graphicData :=
                { inl1.graphic.graphicData with
                  pic := some { pic with spPr := some { sp with cy := cy } } } } })

/-- The secondary synchronized width field
`graphic.graphicData.pic.spPr.cx`, when the sub-tree exists. -/
def InlineShape.secondaryCx (inl : CT_Inline) : Option Int :=
  inl.graphic.graphicData.pic.bind (fun p => p.spPr.map (fun sp => sp.cx))

/-- The secondary synchronized height field
`graphic.graphicData.pic.spPr.cy`, when the sub-tree exists. -/
def InlineShape.secondaryCy (inl : CT_Inline) : Option Int :=
  inl.graphic.graphicData.pic.bind (fun p => p.spPr.map (fun sp => sp.cy))

/-- `InlineShape.type`: classify by `graphicData.uri`; in the picture
namespace, follow `pic.blipFill.blip` and test `blip.link` — navigating
into an absent sub-node raises (`AttributeError`), modelled as `.error`. -/
def InlineShape.shapeType (inl : CT_Inline) : Except String WD_INLINE_SHAPE :=
  let gd := inl.graphic.graphicData
  if gd.uri = nsmap_pic then
    match gd.pic with
    | none => .error "AttributeError"
    | some pic =>
      match pic.blipFill with
      | none => .error "AttributeError"
      | some bf =>
        match bf.blip with
        | none => .error "AttributeError"
        | some blip =>
          if blip.link.isSome then .ok .LINKED_PICTURE else .ok .PICTURE
  else if gd.uri = nsmap_c then .ok .CHART
  else if gd.uri = nsmap_dgm then .ok .SMART_ART
  else .ok .NOT_IMPLEMENTED

/- ------------------------------------------------------------------ -/
/- Inline shape collection.

`InlineShapes._inline_lst` runs the xpath `//w:p/w:r/w:drawing/wp:inline`
over the body element.  Modelled from the spec: the tree is the parsed
markup; the query collects, in document order, every `wp:inline` child of
a `w:drawing` child of a `w:r` child of any descendant-or-self `w:p`. -/

inductive XmlElem : Type where
  | node : String → List XmlElem → XmlElem

def XmlElem.tag : XmlElem → String
  | .node t _ => t

def XmlElem.children : XmlElem → List XmlElem
  | .node _ cs => cs

mutual

/-- Descendant-or-self elements in pre-order (document order). -/
def XmlElem.descendants : XmlElem → List XmlElem
  | .node t cs => .node t cs :: descendantsList cs

def descendantsList : List XmlElem → List XmlElem
  | [] => []
  | e :: es => e.descendants ++ descendantsList es

end

def childrenTagged (t : String) (e : XmlElem) : List XmlElem :=
  e.children.filter (fun c => c.tag == t)

/-- `InlineShapes._inline_lst`: the matches of
`//w:p/w:r/w:drawing/wp:inline`, in document order. -/
def inlineLst (body : XmlElem) : List XmlElem :=
  ((body.descendants.filter (fun e => e.tag == "w:p")).map (fun p =>
    ((childrenTagged "w:r" p).map (fun r =>
      ((childrenTagged "w:drawing" r).map (fun d =>
        childrenTagged "wp:inline" d)).flatten)).flatten)).flatten

/-- CPython sequence indexing: negative indices count from the end, and
out-of-range access (after that adjustment) is `IndexError` (`none`). -/
def pyListGet {α : Type} (l : List α) (i : Int) : Option α :=
  let j : Int := if i < 0 then i + l.length else i
  if 0 ≤ j ∧ j < l.length then l.get? j.toNat else none

/-- Proxy for one located `wp:inline` element. -/
structure InlineShapeProxy where
  inline : XmlElem

/-- `InlineShapes.__getitem__`: index into `_inline_lst`; an `IndexError`
is caught and re-raised with the collection's message. -/
def InlineShapes.getitem (body : XmlElem) (idx : Int) : Except String InlineShapeProxy :=
  match pyListGet (inlineLst body) idx with
  | none => .error ("inline shape index [" ++ toString idx ++ "] out of range")
  | some e => .ok ⟨e⟩

/-- `InlineShapes.__len__`. -/
def InlineShapes.length (body : XmlElem) : Nat := (inlineLst body).length

/- ------------------------------------------------------------------ -/
/- Textbox.

`Textbox` wraps `pict.shape` (a VML shape element); the class only ever
touches the shape's `style` attribute, modelled here as the element's
optional attribute value.  `self._shape.get("style") or ""` maps an
absent attribute to the empty string. -/

structure VShape where
  style : Option PyStr
  deriving DecidableEq

def styleOrEmpty (sh : VShape) : PyStr := sh.style.getD []

/-- `Textbox._update_style_property`: split the style on `;`, strip each
fragment, drop empties, drop fragments starting with `name ++ ":"`,
append the new `name:value` pair, join with `;` and add a trailing `;`. -/
def updateStyleProperty (style propertyName value : PyStr) : PyStr :=
  let parts1 := (parsedParts style).filter (fun p => !(pyStarts (propertyName ++ [':']) p))
  joinSep [';'] (parts1 ++ [propertyName ++ ':' :: value]) ++ [';']

/-- The shared shape of the four Textbox getters: if the literal text
`pat` (e.g. `"margin-left:"`) occurs in the style string, take
`style.split(pat)[1].split(";")[0]`, delete every `"pt"`, and parse it as
a float; otherwise return `0.0`. -/
def styleFloatGet (style pat : PyStr) : Option ℚ :=
  if occursB pat style then
    match (pySplit pat style).get? 1 with
    | some seg => pyParseFloat (removeAll (toL "pt") ((splitChar ';' seg).headD []))
    | none => none
  else some (mkRat 0 1)

def Textbox.leftGet (sh : VShape) : Option ℚ :=
  styleFloatGet (styleOrEmpty sh) (toL "margin-left:")

def Textbox.topGet (sh : VShape) : Option ℚ :=
  styleFloatGet (styleOrEmpty sh) (toL "margin-top:")

def Textbox.widthGet (sh : VShape) : Option ℚ :=
  styleFloatGet (styleOrEmpty sh) (toL "width:")

def Textbox.heightGet (sh : VShape) : Option ℚ :=
  styleFloatGet (styleOrEmpty sh) (toL "height:")

/-- Write the updated style string back to the `style` attribute. -/
def Textbox.updateStyleProp (sh : VShape) (name value : PyStr) : VShape :=
  { style := some (updateStyleProperty (styleOrEmpty sh) name value) }

/-- `Textbox.left` setter for a float whose Python string form is
`vRepr` (the setter runs `f"{value}pt"`; e.g. `2.5` formats as `"2.5"`). -/
def Textbox.leftSet (sh : VShape) (vRepr : PyStr) : VShape :=
  Textbox.updateStyleProp sh (toL "margin-left") (vRepr ++ toL "pt")

def Textbox.topSet (sh : VShape) (vRepr : PyStr) : VShape :=
  Textbox.updateStyleProp sh (toL "margin-top") (vRepr ++ toL "pt")

def Textbox.widthSet (sh : VShape) (vRepr : PyStr) : VShape :=
  Textbox.updateStyleProp sh (toL "width") (vRepr ++ toL "pt")

def Textbox.heightSet (sh : VShape) (vRepr : PyStr) : VShape :=
  Textbox.updateStyleProp sh (toL "height") (vRepr ++ toL "pt")

/- ------------------------------------------------------------------ -/
/- Lemmas about the Python string primitives. -/

theorem pyStarts_append_self (p r : PyStr) : pyStarts p (p ++ r) = true := by
  induction p with
  | nil => rfl
  | cons a pa ih => simp [pyStarts, ih]

theorem pyStarts_iff (p s : PyStr) : pyStarts p s = true ↔ ∃ r, s = p ++ r := by
  induction p generalizing s with
  | nil => simp [pyStarts]
  | cons a pa ih =>
    cases s with
    | nil => simp [pyStarts]
    | cons b sb =>
      simp only [pyStarts, Bool.and_eq_true, beq_iff_eq, ih]
      constructor
      · rintro ⟨rfl, r, rfl⟩
        exact ⟨r, rfl⟩
      · rintro ⟨r, h⟩
        cases h
        exact ⟨rfl, r, rfl⟩

theorem pyStarts_drop (p s : PyStr) (h : pyStarts p s = true) :
    s = p ++ s.drop p.length := by
  obtain ⟨r, rfl⟩ := (pyStarts_iff p s).1 h
  rw [List.drop_left]

theorem splitFirst_sound (pat : PyStr) :
    ∀ s pre post, splitFirst pat s = some (pre, post) → s = pre ++ pat ++ post := by
  intro s
  induction s with
  | nil => intro pre post h; simp [splitFirst] at h
  | cons c s ih =>
    intro pre post h
    rw [splitFirst] at h
    by_cases hp : pyStarts pat (c :: s) = true
    · rw [if_pos hp] at h
      injection h with h
      injection h with h1 h2
      subst h1
      subst h2
      simpa using pyStarts_drop pat (c :: s) hp
    · rw [if_neg hp] at h
      cases hsf : splitFirst pat s with
      | none => rw [hsf] at h; exact absurd h (by simp)
      | some pr =>
        rw [hsf] at h
        injection h with h
        injection h with h1 h2
        subst h1
        subst h2
        have := ih pr.1 pr.2 (by rw [hsf])
        simp only [List.cons_append, List.append_assoc] at this ⊢
        rw [← this]

theorem splitFirst_cons_isSome (pat : PyStr) (c : Char) (s : PyStr) :
    (splitFirst pat (c :: s)).isSome =
      (pyStarts pat (c :: s) || (splitFirst pat s).isSome) := by
  rw [splitFirst]
  by_cases hp : pyStarts pat (c :: s) = true
  · simp [hp]
  · simp only [Bool.not_eq_true] at hp
    cases hsf : splitFirst pat s with
    | none => simp [hp, hsf]
    | some pr => simp [hp, hsf]

theorem occursB_cons (pat : PyStr) (c : Char) (s : PyStr) :
    occursB pat (c :: s) = (pyStarts pat (c :: s) || occursB pat s) :=
  splitFirst_cons_isSome pat c s

theorem occursB_of_starts (pat s : PyStr) (hpat : pat ≠ []) (h : pyStarts pat s = true) :
    occursB pat s = true := by
  cases s with
  | nil =>
    obtain ⟨r, hr⟩ := (pyStarts_iff pat []).1 h
    cases pat with
    | nil => exact absurd rfl hpat
    | cons a pa => simp at hr
  | cons c t => rw [occursB_cons, h]; rfl

theorem occursB_append_right (pat a b : PyStr) (h : occursB pat b = true) :
    occursB pat (a ++ b) = true := by
  induction a with
  | nil => simpa using h
  | cons c a ih =>
    rw [List.cons_append, occursB_cons, ih]
    simp

theorem occursB_append_left (pat a b : PyStr) (h : occursB pat a = true) :
    occursB pat (a ++ b) = true := by
  induction a with
  | nil =>
    rw [occursB] at h
    simp [splitFirst] at h
  | cons c a ih =>
    rw [occursB_cons] at h
    rw [List.cons_append, occursB_cons]
    rcases Bool.or_eq_true_iff.1 h with hs | ho
    · have : pyStarts pat ((c :: a) ++ b) = true := by
        obtain ⟨r, hr⟩ := (pyStarts_iff pat (c :: a)).1 hs
        apply (pyStarts_iff pat ((c :: a) ++ b)).2
        exact ⟨r ++ b, by rw [hr]; simp⟩
      simp only [Bool.or_eq_true]
      exact Or.inl (by simpa using this)
    · rw [ih ho]
      simp

theorem occursB_at (pat a b : PyStr) (hpat : pat ≠ []) :
    occursB pat (a ++ pat ++ b) = true := by
  rw [List.append_assoc]
  apply occursB_append_right
  apply occursB_append_left
  exact occursB_of_starts pat pat hpat (by simpa using pyStarts_append_self pat [])

theorem occursB_of_decomp (pat s x a b : PyStr)
    (hdec : s = a ++ x ++ b) (h : occursB pat x = true) : occursB pat s = true := by
  subst hdec
  rw [List.append_assoc]
  apply occursB_append_right
  exact occursB_append_left pat x b h

theorem splitFirst_post_length (pat : PyStr) (hpat : pat ≠ []) (s pre post : PyStr)
    (h : splitFirst pat s = some (pre, post)) : post.length < s.length := by
  have hs := splitFirst_sound pat s pre post h
  have : s.length = pre.length + pat.length + post.length := by
    rw [hs]; simp [List.length_append]; ring
  have hp : 0 < pat.length := List.length_pos.2 hpat
  omega

theorem splitChar_ne_nil (c : Char) (s : PyStr) : splitChar c s ≠ [] := by
  induction s with
  | nil => simp [splitChar]
  | cons a rest ih =>
    rw [splitChar]
    by_cases h : a == c
    · simp [h]
    · simp only [h]
      cases hs : splitChar c rest with
      | nil => simp
      | cons hh tt => simp [hs]

theorem splitChar_headD (c : Char) (s : PyStr) :
    (splitChar c s).headD [] = s.takeWhile (fun a => !(a == c)) := by
  induction s with
  | nil => simp [splitChar]
  | cons a rest ih =>
    rw [splitChar]
    by_cases h : a == c
    · simp [h, List.takeWhile_cons]
    · simp only [h]
      cases hs : splitChar c rest with
      | nil => exact absurd hs (splitChar_ne_nil c rest)
      | cons hh tt =>
        rw [hs] at ih
        simp only [List.headD_cons] at ih
        simp [List.takeWhile_cons, h, ← ih]

theorem splitChar_head_decomp (c : Char) (s : PyStr) :
    ∃ y, s = (splitChar c s).headD [] ++ y := by
  rw [splitChar_headD]
  exact ⟨s.dropWhile (fun a => !(a == c)), (List.takeWhile_append_dropWhile _ s).symm⟩

theorem mem_splitChar_decomp (c : Char) (s : PyStr) :
    ∀ f ∈ splitChar c s, ∃ x y, s = x ++ f ++ y := by
  induction s with
  | nil =>
    intro f hf
    simp [splitChar] at hf
    exact ⟨[], [], by simp [hf]⟩
  | cons a rest ih =>
    intro f hf
    rw [splitChar] at hf
    by_cases h : a == c
    · simp only [h, if_pos] at hf
      rcases List.mem_cons.1 hf with rfl | hmem
      · exact ⟨[], a :: rest, by simp⟩
      · obtain ⟨x, y, hxy⟩ := ih f hmem
        exact ⟨a :: x, y, by simp [hxy]⟩
    · simp only [h] at hf
      cases hs : splitChar c rest with
      | nil => exact absurd hs (splitChar_ne_nil c rest)
      | cons hh tt =>
        rw [hs] at hf
        rcases List.mem_cons.1 hf with rfl | hmem
        · obtain ⟨y, hy⟩ := splitChar_head_decomp c rest
          rw [hs] at hy
          simp only [List.headD_cons] at hy
          exact ⟨[], y, by simp [hy]⟩
        · obtain ⟨x, y, hxy⟩ := ih f (by rw [hs]; exact List.mem_cons_of_mem _ hmem)
          exact ⟨a :: x, y, by simp [hxy]⟩

theorem mem_splitChar_no_sep (c : Char) (s : PyStr) :
    ∀ f ∈ splitChar c s, ∀ x ∈ f, x ≠ c := by
  induction s with
  | nil =>
    intro f hf
    simp [splitChar] at hf
    simp [hf]
  | cons a rest ih =>
    intro f hf
    rw [splitChar] at hf
    by_cases h : a == c
    · simp only [h, if_pos] at hf
      rcases List.mem_cons.1 hf with rfl | hmem
      · simp
      · exact ih f hmem
    · simp only [h] at hf
      cases hs : splitChar c rest with
      | nil => exact absurd hs (splitChar_ne_nil c rest)
      | cons hh tt =>
        rw [hs] at hf
        have hhd : hh ∈ splitChar c rest := by rw [hs]; exact List.mem_cons_self _ _
        rcases List.mem_cons.1 hf with rfl | hmem
        · intro x hx
          rcases List.mem_cons.1 hx with rfl | hx'
          · simpa using h
          · exact ih hh hhd x hx'
        · exact ih f (by rw [hs]; exact List.mem_cons_of_mem _ hmem)

theorem splitChar_append_sep (c : Char) (p y : PyStr) (hp : ∀ x ∈ p, x ≠ c) :
    splitChar c (p ++ c :: y) = p :: splitChar c y := by
  induction p with
  | nil => simp [splitChar]
  | cons a p' ih =>
    have ha : (a == c) = false := by
      simpa using hp a (List.mem_cons_self _ _)
    rw [List.cons_append, splitChar, ha]
    simp only [Bool.false_eq_true, if_false]
    rw [ih (fun x hx => hp x (List.mem_cons_of_mem _ hx))]

theorem splitChar_joinSep (c : Char) :
    ∀ L : List PyStr, L ≠ [] → (∀ f ∈ L, ∀ x ∈ f, x ≠ c) →
      splitChar c (joinSep [c] L ++ [c]) = L ++ [[]] := by
  intro L
  induction L with
  | nil => intro h; exact absurd rfl h
  | cons p L' ih =>
    intro _ hfree
    cases L' with
    | nil =>
      rw [joinSep]
      have : p ++ [c] = p ++ c :: [] := rfl
      rw [this, splitChar_append_sep c p [] (hfree p (List.mem_cons_self _ _))]
      rfl
    | cons q L'' =>
      rw [joinSep]
      have harr : (p ++ [c] ++ joinSep [c] (q :: L'')) ++ [c] =
          p ++ c :: (joinSep [c] (q :: L'') ++ [c]) := by simp
      rw [harr, splitChar_append_sep c p _ (hfree p (List.mem_cons_self _ _)),
        ih (by simp) (fun f hf => hfree f (List.mem_cons_of_mem _ hf))]
      rfl

theorem takeWhile_append_all {p : Char → Bool} (a b : PyStr) (h : ∀ x ∈ a, p x = true) :
    (a ++ b).takeWhile p = a ++ b.takeWhile p := by
  induction a with
  | nil => rfl
  | cons x a' ih =>
    rw [List.cons_append, List.takeWhile_cons, h x (List.mem_cons_self _ _)]
    simp only [if_true]
    rw [ih (fun x hx => h x (List.mem_cons_of_mem _ hx))]
    simp

theorem takeWhile_append_stop {p : Char → Bool} (a b : PyStr) (h : ∃ x ∈ a, p x = false) :
    (a ++ b).takeWhile p = a.takeWhile p := by
  induction a with
  | nil => simp at h
  | cons x a' ih =>
    rw [List.cons_append, List.takeWhile_cons, List.takeWhile_cons]
    cases hx : p x with
    | false => simp
    | true =>
      simp only [if_true]
      obtain ⟨w, hw, hpw⟩ := h
      rcases List.mem_cons.1 hw with rfl | hw'
      · rw [hx] at hpw; cases hpw
      · rw [ih ⟨w, hw', hpw⟩]

theorem dropWhile_head_false {p : Char → Bool} (l : PyStr) (a : Char) (t : PyStr)
    (h : l.dropWhile p = a :: t) : p a = false := by
  induction l with
  | nil => simp at h
  | cons x l' ih =>
    rw [List.dropWhile_cons] at h
    cases hx : p x with
    | false =>
      rw [hx] at h
      simp only [Bool.false_eq_true, if_false] at h
      cases h
      exact hx
    | true =>
      rw [hx] at h
      simp only [if_true] at h
      exact ih h

theorem keyOf_pair (k v : PyStr) (hk : ∀ x ∈ k, x ≠ ':') :
    keyOf (k ++ ':' :: v) = k := by
  rw [keyOf, takeWhile_append_all k (':' :: v) (fun x hx => by simpa using hk x hx)]
  simp [List.takeWhile_cons]

theorem hasColon_pair (k v : PyStr) : hasColon (k ++ ':' :: v) = true := by
  rw [hasColon, List.any_eq_true]
  exact ⟨':', by simp, by simp⟩

theorem pair_decomp (f : PyStr) (h : hasColon f = true) :
    ∃ rest, f = keyOf f ++ ':' :: rest := by
  rw [hasColon, List.any_eq_true] at h
  obtain ⟨x, hx, hxc⟩ := h
  have hxe : x = ':' := by simpa using hxc
  subst hxe
  cases hd : f.dropWhile (fun c => !(c == ':')) with
  | nil =>
    exfalso
    have := List.dropWhile_eq_nil_iff.1 hd
    simpa using this ':' hx
  | cons a t =>
    have ha : a = ':' := by
      have := dropWhile_head_false f a t hd
      simpa using this
    subst ha
    refine ⟨t, ?_⟩
    conv_lhs => rw [← List.takeWhile_append_dropWhile (fun c => !(c == ':')) f]
    rw [hd]
    rfl

theorem pyStarts_of_keyOf (f k : PyStr) (hc : hasColon f = true) (hk : keyOf f = k) :
    pyStarts (k ++ [':']) f = true := by
  obtain ⟨rest, hrest⟩ := pair_decomp f hc
  rw [hk] at hrest
  apply (pyStarts_iff _ _).2
  exact ⟨rest, by rw [hrest]; simp⟩

theorem dropWhile_length_le {p : Char → Bool} (l : PyStr) :
    (l.dropWhile p).length ≤ l.length := by
  induction l with
  | nil => simp
  | cons x l' ih =>
    rw [List.dropWhile_cons]
    cases hx : p x with
    | false => simp
    | true => simp only [if_true]; exact Nat.le_succ_of_le ih

theorem dropWhile_idem {p : Char → Bool} (l : PyStr) :
    (l.dropWhile p).dropWhile p = l.dropWhile p := by
  induction l with
  | nil => rfl
  | cons x l' ih =>
    rw [List.dropWhile_cons]
    cases hx : p x with
    | false => simp [List.dropWhile_cons, hx]
    | true => simpa using ih

theorem dropWhile_eq_self_head {p : Char → Bool} (b : Char) (l : PyStr)
    (h : (b :: l).dropWhile p = b :: l) : p b = false := by
  cases hb : p b with
  | false => rfl
  | true =>
    exfalso
    rw [List.dropWhile_cons, hb] at h
    simp only [if_true] at h
    have := dropWhile_length_le (p := p) l
    rw [h] at this
    simp at this

theorem rstripW_idem (s : PyStr) : rstripW (rstripW s) = rstripW s := by
  rw [rstripW, rstripW, List.reverse_reverse, dropWhile_idem]

theorem rstripW_of_lstripW (w : PyStr) (h : rstripW w = w) :
    rstripW (lstripW w) = lstripW w := by
  rw [lstripW]
  cases hu : w.dropWhile isPySpace with
  | nil => rfl
  | cons a t =>
    rw [rstripW]
    cases hr : (a :: t).reverse with
    | nil => simp at hr
    | cons b r =>
      have hw : w = w.takeWhile isPySpace ++ a :: t := by
        conv_lhs => rw [← List.takeWhile_append_dropWhile isPySpace w]
        rw [hu]
      have hrev : w.reverse = b :: (r ++ (w.takeWhile isPySpace).reverse) := by
        conv_lhs => rw [hw]
        rw [List.reverse_append, hr]
        simp
      have hb : isPySpace b = false := by
        have hself : w.reverse.dropWhile isPySpace = w.reverse := by
          rw [rstripW] at h
          have := congrArg List.reverse h
          rw [List.reverse_reverse] at this
          exact this
        rw [hrev] at hself
        exact dropWhile_eq_self_head b _ hself
      rw [List.dropWhile_cons, hb]
      simp only [Bool.false_eq_true, if_false]
      rw [← hr, List.reverse_reverse]

theorem strip_idem (s : PyStr) : pyStrip (pyStrip s) = pyStrip s := by
  rw [pyStrip, pyStrip, rstripW_of_lstripW (rstripW s) (rstripW_idem s)]
  simp only [lstripW]
  exact dropWhile_idem _

theorem rstrip_pair (k v : PyStr) : rstripW (k ++ ':' :: v) = k ++ ':' :: rstripW v := by
  rw [rstripW, List.reverse_append]
  have : (':' :: v).reverse = v.reverse ++ [':'] := by simp
  rw [this, List.append_assoc, List.dropWhile_append]
  cases he : (v.reverse.dropWhile isPySpace).isEmpty with
  | true =>
    simp only [if_true]
    have hve : v.reverse.dropWhile isPySpace = [] := by
      cases hvv : v.reverse.dropWhile isPySpace with
      | nil => rfl
      | cons x xs => rw [hvv] at he; simp at he
    have : ([':'] ++ k.reverse).dropWhile isPySpace = [':'] ++ k.reverse := by
      simp [List.dropWhile_cons, isPySpace]
    rw [this]
    rw [rstripW, hve]
    simp
  | false =>
    simp only [Bool.false_eq_true, if_false]
    rw [rstripW]
    simp

theorem lstrip_pair (k u : PyStr) (hk : lstripW k = k) :
    lstripW (k ++ ':' :: u) = k ++ ':' :: u := by
  cases k with
  | nil => simp [lstripW, List.dropWhile_cons, isPySpace]
  | cons a k' =>
    have ha : isPySpace a = false := dropWhile_eq_self_head a k' hk
    simp [lstripW, List.dropWhile_cons, ha]

theorem strip_pair (k v : PyStr) (hk : lstripW k = k) :
    pyStrip (k ++ ':' :: v) = k ++ ':' :: rstripW v := by
  rw [pyStrip, rstrip_pair, lstrip_pair _ _ hk]

theorem pyStarts_strip_pair (k v : PyStr) (hk : lstripW k = k) :
    pyStarts (k ++ [':']) (pyStrip (k ++ ':' :: v)) = true := by
  rw [strip_pair k v hk]
  apply (pyStarts_iff _ _).2
  exact ⟨rstripW v, by simp⟩

theorem strip_decomp (s : PyStr) : ∃ a b, s = a ++ pyStrip s ++ b := by
  refine ⟨(rstripW s).takeWhile isPySpace, ((s.reverse).takeWhile isPySpace).reverse, ?_⟩
  have h1 : rstripW s = (rstripW s).takeWhile isPySpace ++ pyStrip s := by
    rw [pyStrip, lstripW]
    exact (List.takeWhile_append_dropWhile isPySpace (rstripW s)).symm
  have h2 : rstripW s ++ ((s.reverse).takeWhile isPySpace).reverse = s := by
    rw [rstripW, ← List.reverse_append, List.takeWhile_append_dropWhile, List.reverse_reverse]
  conv_lhs => rw [← h2, h1]

theorem mem_strip_sub (s : PyStr) (x : Char) (h : x ∈ pyStrip s) : x ∈ s := by
  obtain ⟨a, b, hd⟩ := strip_decomp s
  rw [hd]
  simp [h]

theorem mem_parsedParts (s p : PyStr) (h : p ∈ parsedParts s) :
    (∃ f ∈ splitChar ';' s, p = pyStrip f) ∧ p ≠ [] := by
  rw [parsedParts] at h
  have hm := List.mem_filter.1 h
  obtain ⟨f, hf, hfp⟩ := List.mem_map.1 hm.1
  refine ⟨⟨f, hf, hfp.symm⟩, ?_⟩
  have := hm.2
  simpa [List.isEmpty_iff] using this

theorem parsedParts_no_sep (s p : PyStr) (h : p ∈ parsedParts s) :
    ∀ x ∈ p, x ≠ ';' := by
  obtain ⟨⟨f, hf, rfl⟩, _⟩ := mem_parsedParts s p h
  intro x hx
  exact mem_splitChar_no_sep ';' s f hf x (mem_strip_sub f x hx)

theorem parsedParts_strip_inv (s p : PyStr) (h : p ∈ parsedParts s) :
    pyStrip p = p := by
  obtain ⟨⟨f, _, rfl⟩, _⟩ := mem_parsedParts s p h
  exact strip_idem f

theorem parsedParts_decomp (s p : PyStr) (h : p ∈ parsedParts s) :
    ∃ a b, s = a ++ p ++ b := by
  obtain ⟨⟨f, hf, rfl⟩, _⟩ := mem_parsedParts s p h
  obtain ⟨x, y, hxy⟩ := mem_splitChar_decomp ';' s f hf
  obtain ⟨a, b, hab⟩ := strip_decomp f
  refine ⟨x ++ a, b ++ y, ?_⟩
  rw [hxy]
  conv_lhs => rw [hab]
  simp [List.append_assoc]

theorem parsedParts_no_occ (s p pat : PyStr) (h : p ∈ parsedParts s)
    (hs : occursB pat s = false) : occursB pat p = false := by
  by_contra hc
  obtain ⟨a, b, hd⟩ := parsedParts_decomp s p h
  have := occursB_of_decomp pat s p a b hd (by simpa using hc)
  rw [hs] at this
  cases this

theorem pyStarts_false_at_part (pat p S : PyStr) (hno : occursB pat p = false)
    (hsep : ';' ∈ pat → False) (hpat : pat ≠ []) :
    pyStarts pat (p ++ ';' :: S) = false := by
  by_contra hc
  simp only [Bool.not_eq_false] at hc
  obtain ⟨r, hr⟩ := (pyStarts_iff _ _).1 hc
  rcases List.append_eq_append_iff.1 hr with ⟨a', ha1, ha2⟩ | ⟨c', hc1, hc2⟩
  · cases a' with
    | nil =>
      have hpp : pat = p := by simpa using ha1
      have : occursB pat p = true := by
        rw [hpp]
        exact occursB_of_starts p p (by rw [← hpp]; exact hpat)
          (by simpa using pyStarts_append_self p [])
      rw [hno] at this
      cases this
    | cons x a'' =>
      have hx : ';' = x := by injection ha2 with h1 h2
      apply hsep
      rw [ha1, ← hx]
      simp
  · have : occursB pat p = true := by
      rw [hc1]
      simpa using occursB_at pat [] c' hpat
    rw [hno] at this
    cases this

theorem splitFirst_at_self (pat b : PyStr) (hpat : pat ≠ []) :
    splitFirst pat (pat ++ b) = some ([], b) := by
  cases pat with
  | nil => exact absurd rfl hpat
  | cons p0 pt =>
    have hst : pyStarts (p0 :: pt) (p0 :: (pt ++ b)) = true := by
      simpa using pyStarts_append_self (p0 :: pt) b
    show splitFirst (p0 :: pt) (p0 :: (pt ++ b)) = some ([], b)
    rw [splitFirst, if_pos hst]
    simp [List.drop_left]

theorem splitFirst_skip_part (pat : PyStr) (hpat : pat ≠ []) (hsep : ';' ∈ pat → False) :
    ∀ p S, occursB pat p = false →
      splitFirst pat (p ++ ';' :: S) =
        (splitFirst pat S).map (fun pr => (p ++ ';' :: pr.1, pr.2)) := by
  intro p
  induction p with
  | nil =>
    intro S _
    have hst : pyStarts pat (';' :: S) = false := by
      by_contra hc
      simp only [Bool.not_eq_false] at hc
      obtain ⟨r, hr⟩ := (pyStarts_iff _ _).1 hc
      cases pat with
      | nil => exact hpat rfl
      | cons q qt =>
        have hq : ';' = q := by injection hr with h1 h2
        exact hsep (by rw [← hq]; simp)
    rw [List.nil_append, splitFirst, if_neg (by simp [hst])]
    cases hsf : splitFirst pat S with
    | none => rfl
    | some pr => rfl
  | cons c p' ih =>
    intro S hno
    have hno' : occursB pat p' = false := by
      rw [occursB_cons] at hno
      exact (Bool.or_eq_false_iff.1 hno).2
    have hst : pyStarts pat ((c :: p') ++ ';' :: S) = false :=
      pyStarts_false_at_part pat (c :: p') S hno hsep hpat
    rw [List.cons_append, splitFirst, if_neg (by simpa using hst)]
    rw [ih S hno']
    cases hsf : splitFirst pat S with
    | none => rfl
    | some pr => rfl

theorem joinSep_cons (sep x : PyStr) (ys : List PyStr) (h : ys ≠ []) :
    joinSep sep (x :: ys) = x ++ sep ++ joinSep sep ys := by
  cases ys with
  | nil => exact absurd rfl h
  | cons y ys' => rfl

theorem joinSep_splitFirst (pat : PyStr) (hpat : pat ≠ []) (hsep : ';' ∈ pat → False) :
    ∀ (parts : List PyStr) (tail : PyStr), (∀ p ∈ parts, occursB pat p = false) →
      ∃ J, splitFirst pat (joinSep [';'] (parts ++ [pat ++ tail]) ++ [';']) =
        some (J, tail ++ [';']) := by
  intro parts
  induction parts with
  | nil =>
    intro tail _
    refine ⟨[], ?_⟩
    have harr : joinSep [';'] ([] ++ [pat ++ tail]) ++ [';'] = pat ++ (tail ++ [';']) := by
      simp [joinSep]
    rw [harr, splitFirst_at_self pat _ hpat]
  | cons p rest ih =>
    intro tail hfree
    obtain ⟨J, hJ⟩ := ih tail (fun q hq => hfree q (List.mem_cons_of_mem _ hq))
    refine ⟨p ++ ';' :: J, ?_⟩
    have harr : joinSep [';'] ((p :: rest) ++ [pat ++ tail]) ++ [';'] =
        p ++ ';' :: (joinSep [';'] (rest ++ [pat ++ tail]) ++ [';']) := by
      rw [List.cons_append, joinSep_cons [';'] p _ (by simp)]
      simp
    rw [harr, splitFirst_skip_part pat hpat hsep p _ (hfree p (List.mem_cons_self _ _)), hJ]
    rfl

theorem pySplitF_fuel (pat : PyStr) (hpat : pat ≠ []) :
    ∀ f1 f2 s, s.length < f1 → s.length < f2 → pySplitF pat f1 s = pySplitF pat f2 s := by
  intro f1
  induction f1 with
  | zero => intro f2 s h1; omega
  | succ g1 ih =>
    intro f2 s h1 h2
    cases f2 with
    | zero => omega
    | succ g2 =>
      rw [pySplitF, pySplitF]
      cases hsf : splitFirst pat s with
      | none => rfl
      | some pr =>
        have hlen := splitFirst_post_length pat hpat s pr.1 pr.2 (by rw [hsf])
        show pr.1 :: pySplitF pat g1 pr.2 = pr.1 :: pySplitF pat g2 pr.2
        rw [ih g2 pr.2 (by omega) (by omega)]

theorem pySplit_none (pat s : PyStr) (h : splitFirst pat s = none) :
    pySplit pat s = [s] := by
  rw [pySplit, pySplitF, h]

theorem pySplit_some (pat s : PyStr) (hpat : pat ≠ []) (pr : PyStr × PyStr)
    (h : splitFirst pat s = some pr) :
    pySplit pat s = pr.1 :: pySplit pat pr.2 := by
  rw [pySplit, pySplitF, h]
  show pr.1 :: pySplitF pat s.length pr.2 = pr.1 :: pySplit pat pr.2
  rw [pySplit]
  congr 1
  have hlen := splitFirst_post_length pat hpat s pr.1 pr.2 (by rw [h])
  exact pySplitF_fuel pat hpat s.length (pr.2.length + 1) pr.2 hlen (by omega)

theorem map_strip_id (l : List PyStr) (h : ∀ x ∈ l, pyStrip x = x) : l.map pyStrip = l := by
  induction l with
  | nil => rfl
  | cons x l' ih =>
    rw [List.map_cons, h x (List.mem_cons_self _ _), ih (fun y hy => h y (List.mem_cons_of_mem _ hy))]

theorem filter_true_of {q : PyStr → Bool} (l : List PyStr) (h : ∀ x ∈ l, q x = true) :
    l.filter q = l := by
  induction l with
  | nil => rfl
  | cons x l' ih =>
    rw [List.filter_cons_of_pos (h x (List.mem_cons_self _ _)),
      ih (fun y hy => h y (List.mem_cons_of_mem _ hy))]

theorem filter_false_of {q : PyStr → Bool} (l : List PyStr) (h : ∀ x ∈ l, q x = false) :
    l.filter q = [] := by
  induction l with
  | nil => rfl
  | cons x l' ih =>
    rw [List.filter_cons_of_neg (by simp [h x (List.mem_cons_self _ _)]),
      ih (fun y hy => h y (List.mem_cons_of_mem _ hy))]

theorem styleGet_default (style pat : PyStr) (h : occursB pat style = false) :
    styleFloatGet style pat = some (mkRat 0 1) := by
  rw [styleFloatGet, h]
  simp

theorem styleGet_first (style pat pre post : PyStr) (hpat : pat ≠ [])
    (hsep : ';' ∈ pat → False)
    (hsf : splitFirst pat style = some (pre, post))
    (hno : occursB pat (post.takeWhile (fun c => !(c == ';'))) = false) :
    styleFloatGet style pat =
      pyParseFloat (removeAll (toL "pt") (post.takeWhile (fun c => !(c == ';')))) := by
  have hocc : occursB pat style = true := by rw [occursB, hsf]; rfl
  rw [styleFloatGet, hocc]
  simp only [if_true]
  rw [pySplit_some pat style hpat (pre, post) hsf]
  cases hsf2 : splitFirst pat post with
  | none =>
    rw [pySplit_none pat post hsf2]
    simp only [List.get?_cons_succ, List.get?_cons_zero]
    rw [splitChar_headD]
  | some pr2 =>
    rw [pySplit_some pat post hpat pr2 hsf2]
    simp only [List.get?_cons_succ, List.get?_cons_zero]
    rw [splitChar_headD]
    have hdec := splitFirst_sound pat post pr2.1 pr2.2 (by rw [hsf2])
    by_cases hstop : ∃ x ∈ pr2.1, (!(x == ';')) = false
    · have heq : post.takeWhile (fun c => !(c == ';')) = pr2.1.takeWhile (fun c => !(c == ';')) := by
        conv_lhs => rw [hdec]
        rw [List.append_assoc]
        exact takeWhile_append_stop pr2.1 (pat ++ pr2.2) hstop
      rw [heq]
    · exfalso
      have hall : ∀ x ∈ pr2.1, (fun c => !(c == ';')) x = true := by
        intro x hx
        by_contra hxc
        exact hstop ⟨x, hx, by simpa using hxc⟩
      have hallp : ∀ x ∈ pat, (fun c => !(c == ';')) x = true := by
        intro x hx
        simp only [Bool.not_eq_true']
        by_contra hxc
        simp only [Bool.not_eq_false, beq_iff_eq] at hxc
        exact hsep (hxc ▸ hx)
      have heq2 : post.takeWhile (fun c => !(c == ';')) =
          pr2.1 ++ pat ++ pr2.2.takeWhile (fun c => !(c == ';')) := by
        conv_lhs => rw [hdec]
        rw [List.append_assoc, takeWhile_append_all pr2.1 _ hall,
          takeWhile_append_all pat _ hallp, List.append_assoc]
      have : occursB pat (post.takeWhile (fun c => !(c == ';'))) = true := by
        rw [heq2]
        exact occursB_at pat pr2.1 _ hpat
      rw [hno] at this
      cases this

/-- `_update_style_property`, with its `let` bindings flattened. -/
theorem updateStyle_eq (s k v : PyStr) :
    updateStyleProperty s k v =
      joinSep [';'] ((parsedParts s).filter (fun p => !(pyStarts (k ++ [':']) p)) ++
        [k ++ ':' :: v]) ++ [';'] := rfl

theorem updateStyle_splitFirst (style k v : PyStr) (hk : ';' ∈ k → False)
    (hno : occursB (k ++ [':']) style = false) :
    ∃ J, splitFirst (k ++ [':']) (updateStyleProperty style k v) = some (J, v ++ [';']) := by
  have hpat : (k ++ [':']) ≠ [] := by simp
  have hsep : ';' ∈ k ++ [':'] → False := by
    intro hmem
    rcases List.mem_append.1 hmem with h | h
    · exact hk h
    · simp at h
  have hkv : k ++ ':' :: v = (k ++ [':']) ++ v := by simp
  rw [updateStyle_eq, hkv]
  exact joinSep_splitFirst (k ++ [':']) hpat hsep _ v
    (fun p hp => parsedParts_no_occ style p _ (List.mem_of_mem_filter hp) hno)

theorem splitChar_update (style k v : PyStr) (hk : ';' ∈ k → False) (hv : ';' ∈ v → False) :
    splitChar ';' (updateStyleProperty style k v) =
      ((parsedParts style).filter (fun p => !(pyStarts (k ++ [':']) p)) ++ [k ++ ':' :: v]) ++
        [[]] := by
  rw [updateStyle_eq]
  apply splitChar_joinSep
  · simp
  · intro f hf x hx
    rcases List.mem_append.1 hf with h | h
    · exact parsedParts_no_sep style f (List.mem_of_mem_filter h) x hx
    · have hfe : f = k ++ ':' :: v := by simpa using h
      subst hfe
      intro hxe
      subst hxe
      rcases List.mem_append.1 hx with hmem | hmem
      · exact hk hmem
      · rcases List.mem_cons.1 hmem with hcc | hcc
        · cases hcc
        · exact hv hcc

theorem parsedParts_update (style k v : PyStr) (hk : ';' ∈ k → False) (hv : ';' ∈ v → False)
    (hkl : lstripW k = k) :
    parsedParts (updateStyleProperty style k v) =
      (parsedParts style).filter (fun p => !(pyStarts (k ++ [':']) p)) ++
        [k ++ ':' :: rstripW v] := by
  rw [parsedParts, splitChar_update style k v hk hv]
  rw [List.map_append, List.map_append]
  have h1 : ((parsedParts style).filter (fun p => !(pyStarts (k ++ [':']) p))).map pyStrip =
      (parsedParts style).filter (fun p => !(pyStarts (k ++ [':']) p)) :=
    map_strip_id _ (fun p hp => parsedParts_strip_inv style p (List.mem_of_mem_filter hp))
  have h2 : ([k ++ ':' :: v] : List PyStr).map pyStrip = [k ++ ':' :: rstripW v] := by
    simp only [List.map_cons, List.map_nil]
    rw [strip_pair k v hkl]
  have h3 : ([[]] : List PyStr).map pyStrip = [[]] := rfl
  rw [h1, h2, h3, List.filter_append, List.filter_append]
  have h4 : ((parsedParts style).filter (fun p => !(pyStarts (k ++ [':']) p))).filter
      (fun p => !p.isEmpty) = (parsedParts style).filter (fun p => !(pyStarts (k ++ [':']) p)) :=
    filter_true_of _ (fun p hp => by
      have hne := (mem_parsedParts style p (List.mem_of_mem_filter hp)).2
      simpa [List.isEmpty_iff] using hne)
  have h5 : ([k ++ ':' :: rstripW v] : List PyStr).filter (fun p => !p.isEmpty) =
      [k ++ ':' :: rstripW v] := by
    apply filter_true_of
    intro p hp
    have hpe : p = k ++ ':' :: rstripW v := by simpa using hp
    subst hpe
    simp [List.isEmpty_iff]
  have h6 : (([[]] : List PyStr)).filter (fun p => !p.isEmpty) = [] := rfl
  rw [h4, h5, h6, List.append_nil]


/- ------------------------------------------------------------------ -/
/- Claim theorems. -/

/-- C7: serialization of the style micro-format appends the updated pair at
the end with a trailing separator after every pair and no leading
separator: setting key `"width"` to value `"3.0pt"` on an empty (or
absent) style string yields exactly `"width:3.0pt;"`, both at the
`_update_style_property` level and through the `Textbox.width` setter with
the float `3.0` (formatted `"3.0"`). -/
theorem C7_trailing_sep :
    updateStyleProperty [] (toL "width") (toL "3.0pt") = toL "width:3.0pt;" ∧
      (Textbox.widthSet ⟨none⟩ (toL "3.0")).style = some (toL "width:3.0pt;") := by
  constructor
  · decide
  · decide

/-- C6 counterexample: the claim quantifies over every key string, but for
the key `" width"` (legal per the spec grammar, which only excludes `:`
and `;`) setting twice is not the same as setting once — the stripping of
fragments re-parses the stored `" width:1pt"` as `"width:1pt"`, which no
longer starts with `" width:"`, so the second set duplicates the pair. -/
theorem C6_not_idempotent_cex :
    updateStyleProperty (updateStyleProperty [] (toL " width") (toL "1pt")) (toL " width")
        (toL "1pt") ≠
      updateStyleProperty [] (toL " width") (toL "1pt") := by decide

/-- C6 (amended): for every starting style string and every key `k` and
value `v` such that `k` contains no `;` and no `:` and has no leading
whitespace, and `v` contains no `;`, calling set twice equals calling it
once, and after a set the serialized string contains exactly one
`key:value` pair whose key is `k`. -/
theorem C6_idempotent_unique (s k v : PyStr) (hk : ';' ∈ k → False) (hkc : ':' ∈ k → False)
    (hv : ';' ∈ v → False) (hkl : lstripW k = k) :
    updateStyleProperty (updateStyleProperty s k v) k v = updateStyleProperty s k v ∧
      countKeyPairs (updateStyleProperty s k v) k = 1 := by
  constructor
  · conv_lhs => rw [updateStyle_eq]
    rw [parsedParts_update s k v hk hv hkl, List.filter_append]
    have hkeep : ((parsedParts s).filter (fun p => !(pyStarts (k ++ [':']) p))).filter
        (fun p => !(pyStarts (k ++ [':']) p)) =
        (parsedParts s).filter (fun p => !(pyStarts (k ++ [':']) p)) :=
      filter_true_of _ (fun p hp => (List.mem_filter.1 hp).2)
    have hdrop : ([k ++ ':' :: rstripW v] : List PyStr).filter
        (fun p => !(pyStarts (k ++ [':']) p)) = [] := by
      apply filter_false_of
      intro p hp
      have hpe : p = k ++ ':' :: rstripW v := by simpa using hp
      subst hpe
      have hst : pyStarts (k ++ [':']) (k ++ ':' :: rstripW v) = true :=
        (pyStarts_iff _ _).2 ⟨rstripW v, by simp⟩
      simp [hst]
    rw [hkeep, hdrop, List.append_nil, updateStyle_eq]
  · rw [countKeyPairs, splitChar_update s k v hk hv, List.filter_append, List.filter_append]
    have hA : ((parsedParts s).filter (fun p => !(pyStarts (k ++ [':']) p))).filter
        (fun f => hasColon f && (keyOf f == k)) = [] := by
      apply filter_false_of
      intro f hf
      cases h1 : hasColon f with
      | false => simp [h1]
      | true =>
        cases h2 : (keyOf f == k) with
        | false => simp [h1, h2]
        | true =>
          exfalso
          have hkey : keyOf f = k := by simpa using h2
          have hst := pyStarts_of_keyOf f k h1 hkey
          have hQ := (List.mem_filter.1 hf).2
          rw [hst] at hQ
          simp at hQ
    have hB : ([k ++ ':' :: v] : List PyStr).filter (fun f => hasColon f && (keyOf f == k)) =
        [k ++ ':' :: v] := by
      apply filter_true_of
      intro f hf
      have hfe : f = k ++ ':' :: v := by simpa using hf
      subst hfe
      have hkey : keyOf (k ++ ':' :: v) = k :=
        keyOf_pair k v (fun x hx hxe => hkc (hxe ▸ hx))
      simp [hasColon_pair, hkey]
    have hC : (([[]] : List PyStr)).filter (fun f => hasColon f && (keyOf f == k)) = [] := rfl
    rw [hA, hB, hC]
    simp

/-- C6 witness: at the concrete style `"a:1;width:9pt;b:2;"`, key
`"width"`, value `"3.0pt"`, the amended theorem's hypotheses hold and both
conclusions apply. -/
theorem C6_witness :
    updateStyleProperty
        (updateStyleProperty (toL "a:1;width:9pt;b:2;") (toL "width") (toL "3.0pt"))
        (toL "width") (toL "3.0pt") =
      updateStyleProperty (toL "a:1;width:9pt;b:2;") (toL "width") (toL "3.0pt") ∧
      countKeyPairs
        (updateStyleProperty (toL "a:1;width:9pt;b:2;") (toL "width") (toL "3.0pt"))
        (toL "width") = 1 :=
  C6_idempotent_unique (toL "a:1;width:9pt;b:2;") (toL "width") (toL "3.0pt")
    (by decide) (by decide) (by decide) (by decide)

/-- C8 counterexample: setting one property does not leave the other
pairs' exact text unchanged — whitespace trimming IS applied.  In the
style `" a:1;b:2;"` the first pair's exact text is the fragment `" a:1"`,
but after `set("width", "2pt")` the serialized string is
`"a:1;b:2;width:2pt;"`, in which the text `" a:1"` no longer occurs. -/
theorem C8_trimming_cex :
    (toL " a:1") ∈ splitChar ';' (toL " a:1;b:2;") ∧
      updateStyleProperty (toL " a:1;b:2;") (toL "width") (toL "2pt") =
        toL "a:1;b:2;width:2pt;" ∧
      occursB (toL " a:1")
        (updateStyleProperty (toL " a:1;b:2;") (toL "width") (toL "2pt")) = false := by
  refine ⟨by decide, by decide, by decide⟩

/-- C8 (amended): for every style string and every key `k` (no `;`, no
leading whitespace) and value `v` (no `;`, no trailing whitespace), the
trimmed pair list parsed back from the updated style equals the trimmed
pairs of the original with exactly the `k`-keyed fragments removed, in
their original relative order, with the new pair `k:v` appended at the
end; other pairs are preserved only up to whitespace trimming and empty
fragment removal, not verbatim. -/
theorem C8_frame (s k v : PyStr) (hk : ';' ∈ k → False) (hv : ';' ∈ v → False)
    (hkl : lstripW k = k) (hvr : rstripW v = v) :
    parsedParts (updateStyleProperty s k v) =
      (parsedParts s).filter (fun p => !(pyStarts (k ++ [':']) p)) ++ [k ++ ':' :: v] := by
  rw [parsedParts_update s k v hk hv hkl, hvr]

/-- C8 witness: the amended frame theorem applied at the concrete style
`" a:1;b:2;"`, key `"width"`, value `"2pt"`. -/
theorem C8_witness :
    parsedParts (updateStyleProperty (toL " a:1;b:2;") (toL "width") (toL "2pt")) =
      (parsedParts (toL " a:1;b:2;")).filter
          (fun p => !(pyStarts (toL "width" ++ [':']) p)) ++
        [toL "width" ++ ':' :: toL "2pt"] :=
  C8_frame (toL " a:1;b:2;") (toL "width") (toL "2pt") (by decide) (by decide) (by decide)
    (by decide)

/-- C5 counterexample: the style `"max-width:5.0pt;"` has no pair with key
`"width"`, yet the `Textbox.width` getter returns `5.0` instead of the
default `0.0` — the getter matches the literal substring `"width:"`, which
here lies inside the longer key `"max-width"`. -/
theorem C5_substring_cex :
    countKeyPairs (toL "max-width:5.0pt;") (toL "width") = 0 ∧
      Textbox.widthGet ⟨some (toL "max-width:5.0pt;")⟩ = some (mkRat 5 1) ∧
      Textbox.widthGet ⟨some (toL "max-width:5.0pt;")⟩ ≠ some (mkRat 0 1) := by
  refine ⟨by decide, by decide, by decide⟩

/-- C5 (amended): each of the four textbox getters performs substring
matching, not exact key matching.  For every style string and every
nonempty `;`-free pattern `pat` (the literal `"<key>:"`): if `pat` does
not occur as a substring the getter returns the default `0.0` rather than
an error; if it does occur — the occurrence may lie inside a longer key
such as `"max-width"` — the getter returns the float parse of the text
between the first occurrence of `pat` and the following `;`, with every
`"pt"` deleted (provided `pat` does not re-occur in that text). -/
theorem C5_getter_substring (style pat : PyStr) (hpat : pat ≠ [])
    (hsep : ';' ∈ pat → False) :
    (occursB pat style = false → styleFloatGet style pat = some (mkRat 0 1)) ∧
      (∀ pre post, splitFirst pat style = some (pre, post) →
        occursB pat (post.takeWhile (fun c => !(c == ';'))) = false →
        styleFloatGet style pat =
          pyParseFloat (removeAll (toL "pt") (post.takeWhile (fun c => !(c == ';'))))) := by
  constructor
  · exact styleGet_default style pat
  · intro pre post hsf hno
    exact styleGet_first style pat pre post hpat hsep hsf hno

/-- C5 witness: on `"max-width:5.0pt;"` with query key `"width"`, the
first occurrence of `"width:"` is followed by `"5.0pt;"`, so the getter
returns `5.0`; and on a style without the substring it returns `0.0`. -/
theorem C5_witness :
    styleFloatGet (toL "max-width:5.0pt;") (toL "width:") = some (mkRat 5 1) ∧
      styleFloatGet (toL "a:1;") (toL "width:") = some (mkRat 0 1) := by
  constructor
  · have h := (C5_getter_substring (toL "max-width:5.0pt;") (toL "width:") (by decide)
      (by decide)).2 (toL "max-") (toL "5.0pt;") (by decide) (by decide)
    rw [h]
    decide
  · exact (C5_getter_substring (toL "a:1;") (toL "width:") (by decide) (by decide)).1 (by decide)

/-- C9 counterexample: the style `"xmargin-left:3.0pt;"` has no pair with
key `"margin-left"`, yet reading `left` returns `3.0`, not the claimed
default `0.0` — the getter matches the substring `"margin-left:"` inside
the longer key `"xmargin-left"`. -/
theorem C9_substring_cex :
    countKeyPairs (toL "xmargin-left:3.0pt;") (toL "margin-left") = 0 ∧
      Textbox.leftGet ⟨some (toL "xmargin-left:3.0pt;")⟩ = some (mkRat 3 1) ∧
      Textbox.leftGet ⟨some (toL "xmargin-left:3.0pt;")⟩ ≠ some (mkRat 0 1) := by
  refine ⟨by decide, by decide, by decide⟩

/-- C9 (amended): for every textbox whose style attribute does not contain
the substring `"margin-left:"` (rather than merely lacking a
`margin-left` key), reading `left` returns `0.0`; and after assigning
`left = 2.5` (Python formats the value as `"2.5"`), reading `left`
returns `2.5` and the underlying style string contains the substring
`"margin-left:2.5pt;"`. -/
theorem C9_left_default_roundtrip (sh : VShape)
    (hno : occursB (toL "margin-left:") (styleOrEmpty sh) = false) :
    Textbox.leftGet sh = some (mkRat 0 1) ∧
      Textbox.leftGet (Textbox.leftSet sh (toL "2.5")) = some (mkRat 5 2) ∧
      occursB (toL "margin-left:2.5pt;")
        (styleOrEmpty (Textbox.leftSet sh (toL "2.5"))) = true := by
  have hpatconv : toL "margin-left" ++ [':'] = toL "margin-left:" := by decide
  obtain ⟨J, hJ⟩ := updateStyle_splitFirst (styleOrEmpty sh) (toL "margin-left")
    (toL "2.5" ++ toL "pt") (by decide) (by rw [hpatconv]; exact hno)
  rw [hpatconv] at hJ
  refine ⟨styleGet_default _ _ hno, ?_, ?_⟩
  · show styleFloatGet
        (updateStyleProperty (styleOrEmpty sh) (toL "margin-left") (toL "2.5" ++ toL "pt"))
        (toL "margin-left:") = some (mkRat 5 2)
    rw [styleGet_first _ _ J _ (by decide) (by decide) hJ (by decide)]
    decide
  · show occursB (toL "margin-left:2.5pt;")
        (updateStyleProperty (styleOrEmpty sh) (toL "margin-left")
          (toL "2.5" ++ toL "pt")) = true
    have hsound := splitFirst_sound _ _ _ _ hJ
    rw [hsound, List.append_assoc]
    have hneed : toL "margin-left:" ++ ((toL "2.5" ++ toL "pt") ++ [';']) =
        toL "margin-left:2.5pt;" := by decide
    rw [hneed]
    have hocc := occursB_at (toL "margin-left:2.5pt;") J [] (by decide)
    simpa using hocc

/-- C9 witness: the amended theorem applied to a textbox with no style
attribute at all. -/
theorem C9_witness :
    Textbox.leftGet (⟨none⟩ : VShape) = some (mkRat 0 1) ∧
      Textbox.leftGet (Textbox.leftSet ⟨none⟩ (toL "2.5")) = some (mkRat 5 2) ∧
      occursB (toL "margin-left:2.5pt;")
        (styleOrEmpty (Textbox.leftSet ⟨none⟩ (toL "2.5"))) = true :=
  C9_left_default_roundtrip ⟨none⟩ (by decide)

/-- C1 counterexample: on an inline graphic without a `pic` sub-tree
(extent width `1`), setting the width to `5` fails — but the primary
extent field has already been changed from `1` to `5`, so the operation
is not atomic and does not leave both fields unchanged. -/
theorem C1_partial_write_cex :
    (InlineShape.setWidth ⟨⟨1, 2⟩, ⟨⟨"uri", none⟩⟩⟩ 5).1 = some "MalformedGraphicTree" ∧
      (InlineShape.setWidth ⟨⟨1, 2⟩, ⟨⟨"uri", none⟩⟩⟩ 5).2.extent.cx = 5 ∧
      (⟨⟨1, 2⟩, ⟨⟨"uri", none⟩⟩⟩ : CT_Inline).extent.cx = 1 := by
  refine ⟨rfl, rfl, rfl⟩

/-- C1 (amended): for every inline graphic whose
`graphic.graphicData.pic.spPr` path is absent, setting width (or height)
fails with an error, but the write is not atomic: the primary extent
field has already been set to the new value when the failure occurs; only
the secondary sub-tree is left untouched. -/
theorem C1_partial_write (inl : CT_Inline) (v : Int)
    (h : inl.graphic.graphicData.pic = none ∨
      ∃ p, inl.graphic.graphicData.pic = some p ∧ p.spPr = none) :
    (InlineShape.setWidth inl v).1 = some "MalformedGraphicTree" ∧
      (InlineShape.setWidth inl v).2.extent.cx = v ∧
      (InlineShape.setWidth inl v).2.graphic = inl.graphic ∧
      (InlineShape.setHeight inl v).1 = some "MalformedGraphicTree" ∧
      (InlineShape.setHeight inl v).2.extent.cy = v ∧
      (InlineShape.setHeight inl v).2.graphic = inl.graphic := by
  obtain ⟨⟨ecx, ecy⟩, ⟨⟨uri, pic⟩⟩⟩ := inl
  rcases h with hnone | ⟨p, hp, hsp⟩
  · simp only at hnone
    subst hnone
    exact ⟨rfl, rfl, rfl, rfl, rfl, rfl⟩
  · obtain ⟨blipF, spPr⟩ := p
    simp only at hp
    subst hp
    simp only at hsp
    subst hsp
    exact ⟨rfl, rfl, rfl, rfl, rfl, rfl⟩

/-- C1 witness: the amended theorem at a concrete inline graphic with no
`pic` sub-tree. -/
theorem C1_witness :
    (InlineShape.setWidth ⟨⟨7, 8⟩, ⟨⟨"uri", none⟩⟩⟩ 9).1 = some "MalformedGraphicTree" ∧
      (InlineShape.setWidth ⟨⟨7, 8⟩, ⟨⟨"uri", none⟩⟩⟩ 9).2.extent.cx = 9 ∧
      (InlineShape.setWidth ⟨⟨7, 8⟩, ⟨⟨"uri", none⟩⟩⟩ 9).2.graphic =
        (⟨⟨7, 8⟩, ⟨⟨"uri", none⟩⟩⟩ : CT_Inline).graphic ∧
      (InlineShape.setHeight ⟨⟨7, 8⟩, ⟨⟨"uri", none⟩⟩⟩ 9).1 = some "MalformedGraphicTree" ∧
      (InlineShape.setHeight ⟨⟨7, 8⟩, ⟨⟨"uri", none⟩⟩⟩ 9).2.extent.cy = 9 ∧
      (InlineShape.setHeight ⟨⟨7, 8⟩, ⟨⟨"uri", none⟩⟩⟩ 9).2.graphic =
        (⟨⟨7, 8⟩, ⟨⟨"uri", none⟩⟩⟩ : CT_Inline).graphic :=
  C1_partial_write ⟨⟨7, 8⟩, ⟨⟨"uri", none⟩⟩⟩ 9 (Or.inl rfl)

/-- C2: on an inline graphic whose `pic.spPr` sub-tree is present, setting
width to `v` succeeds, reading width returns `v`, and the secondary
synchronized field `graphic.graphicData.pic.spPr.cx` equals `v`; the same
holds for height with the `cy` fields. -/
theorem C2_sync_write (inl : CT_Inline) (v : Int) (p : CT_Picture) (sp : CT_ShapeProperties)
    (hp : inl.graphic.graphicData.pic = some p) (hsp : p.spPr = some sp) :
    (InlineShape.setWidth inl v).1 = none ∧
      InlineShape.width (InlineShape.setWidth inl v).2 = v ∧
      InlineShape.secondaryCx (InlineShape.setWidth inl v).2 = some v ∧
      (InlineShape.setHeight inl v).1 = none ∧
      InlineShape.height (InlineShape.setHeight inl v).2 = v ∧
      InlineShape.secondaryCy (InlineShape.setHeight inl v).2 = some v := by
  obtain ⟨⟨ecx, ecy⟩, ⟨⟨uri, pic⟩⟩⟩ := inl
  obtain ⟨blipF, spPr⟩ := p
  simp only at hp
  subst hp
  simp only at hsp
  subst hsp
  exact ⟨rfl, rfl, rfl, rfl, rfl, rfl⟩

/-- C2 witness: the synchronized write at a concrete picture-bearing
inline graphic. -/
theorem C2_witness :
    (InlineShape.setWidth ⟨⟨1, 2⟩, ⟨⟨"uri", some ⟨none, some ⟨3, 4⟩⟩⟩⟩⟩ 5).1 = none ∧
      InlineShape.width
        (InlineShape.setWidth ⟨⟨1, 2⟩, ⟨⟨"uri", some ⟨none, some ⟨3, 4⟩⟩⟩⟩⟩ 5).2 = 5 ∧
      InlineShape.secondaryCx
        (InlineShape.setWidth ⟨⟨1, 2⟩, ⟨⟨"uri", some ⟨none, some ⟨3, 4⟩⟩⟩⟩⟩ 5).2 = some 5 ∧
      (InlineShape.setHeight ⟨⟨1, 2⟩, ⟨⟨"uri", some ⟨none, some ⟨3, 4⟩⟩⟩⟩⟩ 5).1 = none ∧
      InlineShape.height
        (InlineShape.setHeight ⟨⟨1, 2⟩, ⟨⟨"uri", some ⟨none, some ⟨3, 4⟩⟩⟩⟩⟩ 5).2 = 5 ∧
      InlineShape.secondaryCy
        (InlineShape.setHeight ⟨⟨1, 2⟩, ⟨⟨"uri", some ⟨none, some ⟨3, 4⟩⟩⟩⟩⟩ 5).2 = some 5 :=
  C2_sync_write ⟨⟨1, 2⟩, ⟨⟨"uri", some ⟨none, some ⟨3, 4⟩⟩⟩⟩⟩ 5 ⟨none, some ⟨3, 4⟩⟩ ⟨3, 4⟩
    rfl rfl

/-- C3: the type classification is exhaustive over the discriminator: a
picture-namespace uri with the blip present and no link reference yields
`PICTURE`, with a link reference yields `LINKED_PICTURE`; a
chart-namespace uri yields `CHART`; a smart-art-namespace uri yields
`SMART_ART`; and any other uri yields `NOT_IMPLEMENTED` without an
error. -/
theorem C3_classification (inl : CT_Inline) :
    (inl.graphic.graphicData.uri = nsmap_pic →
      ∀ p bf blip, inl.graphic.graphicData.pic = some p → p.blipFill = some bf →
        bf.blip = some blip →
        ((blip.link = none → InlineShape.shapeType inl = .ok .PICTURE) ∧
          (∀ r, blip.link = some r → InlineShape.shapeType inl = .ok .LINKED_PICTURE))) ∧
      (inl.graphic.graphicData.uri = nsmap_c → InlineShape.shapeType inl = .ok .CHART) ∧
      (inl.graphic.graphicData.uri = nsmap_dgm → InlineShape.shapeType inl = .ok .SMART_ART) ∧
      (inl.graphic.graphicData.uri ≠ nsmap_pic → inl.graphic.graphicData.uri ≠ nsmap_c →
        inl.graphic.graphicData.uri ≠ nsmap_dgm →
        InlineShape.shapeType inl = .ok .NOT_IMPLEMENTED) := by
  obtain ⟨⟨ecx, ecy⟩, ⟨⟨uri, pic⟩⟩⟩ := inl
  refine ⟨?_, ?_, ?_, ?_⟩
  · intro huri p bf blip hp hbf hblip
    simp only at huri hp
    subst huri
    subst hp
    obtain ⟨blipFill, spPr⟩ := p
    simp only at hbf
    subst hbf
    obtain ⟨blip'⟩ := bf
    simp only at hblip
    subst hblip
    constructor
    · intro hl
      simp [InlineShape.shapeType, hl]
    · intro r hl
      simp [InlineShape.shapeType, hl]
  · intro huri
    simp only at huri
    subst huri
    simp [InlineShape.shapeType, show nsmap_c ≠ nsmap_pic from by decide]
  · intro huri
    simp only at huri
    subst huri
    simp [InlineShape.shapeType, show nsmap_dgm ≠ nsmap_pic from by decide,
      show nsmap_dgm ≠ nsmap_c from by decide]
  · intro h1 h2 h3
    simp only at h1 h2 h3
    simp [InlineShape.shapeType, h1, h2, h3]

/-- C3 witness: all five classification outcomes at concrete inline
graphics. -/
theorem C3_witness :
    InlineShape.shapeType ⟨⟨1, 1⟩, ⟨⟨nsmap_pic, some ⟨some ⟨some ⟨none⟩⟩, none⟩⟩⟩⟩ =
        .ok .PICTURE ∧
      InlineShape.shapeType
          ⟨⟨1, 1⟩, ⟨⟨nsmap_pic, some ⟨some ⟨some ⟨some "rId7"⟩⟩, none⟩⟩⟩⟩ =
        .ok .LINKED_PICTURE ∧
      InlineShape.shapeType ⟨⟨1, 1⟩, ⟨⟨nsmap_c, none⟩⟩⟩ = .ok .CHART ∧
      InlineShape.shapeType ⟨⟨1, 1⟩, ⟨⟨nsmap_dgm, none⟩⟩⟩ = .ok .SMART_ART ∧
      InlineShape.shapeType ⟨⟨1, 1⟩, ⟨⟨"urn:other", none⟩⟩⟩ = .ok .NOT_IMPLEMENTED := by
  refine ⟨?_, ?_, ?_, ?_, ?_⟩
  · exact ((C3_classification ⟨⟨1, 1⟩, ⟨⟨nsmap_pic, some ⟨some ⟨some ⟨none⟩⟩, none⟩⟩⟩⟩).1
      rfl ⟨some ⟨some ⟨none⟩⟩, none⟩ ⟨some ⟨none⟩⟩ ⟨none⟩ rfl rfl rfl).1 rfl
  · exact ((C3_classification
      ⟨⟨1, 1⟩, ⟨⟨nsmap_pic, some ⟨some ⟨some ⟨some "rId7"⟩⟩, none⟩⟩⟩⟩).1
      rfl ⟨some ⟨some ⟨some "rId7"⟩⟩, none⟩ ⟨some ⟨some "rId7"⟩⟩ ⟨some "rId7"⟩
      rfl rfl rfl).2 "rId7" rfl
  · exact (C3_classification ⟨⟨1, 1⟩, ⟨⟨nsmap_c, none⟩⟩⟩).2.1 rfl
  · exact (C3_classification ⟨⟨1, 1⟩, ⟨⟨nsmap_dgm, none⟩⟩⟩).2.2.1 rfl
  · exact (C3_classification ⟨⟨1, 1⟩, ⟨⟨"urn:other", none⟩⟩⟩).2.2.2 (by decide) (by decide)
      (by decide)

theorem pyListGet_nat {α : Type} (l : List α) (i : Nat) (h : i < l.length) :
    pyListGet l (i : Int) = some (l.get ⟨i, h⟩) := by
  simp only [pyListGet]
  rw [if_neg (show ¬((i : Int) < 0) by omega)]
  rw [if_pos (show (0 : Int) ≤ (i : Int) ∧ (i : Int) < l.length by
    constructor <;> omega)]
  rw [show ((i : Int)).toNat = i by omega]
  exact List.get?_eq_get h

theorem pyListGet_oob_hi {α : Type} (l : List α) : pyListGet l (l.length : Int) = none := by
  simp only [pyListGet]
  rw [if_neg (show ¬((l.length : Int) < 0) by omega)]
  rw [if_neg (show ¬((0 : Int) ≤ (l.length : Int) ∧ (l.length : Int) < l.length) by omega)]

theorem pyListGet_oob_lo {α : Type} (l : List α) :
    pyListGet l (-(l.length : Int) - 1) = none := by
  simp only [pyListGet]
  rw [if_pos (show (-(l.length : Int) - 1) < 0 by omega)]
  rw [if_neg (show ¬((0 : Int) ≤ -(l.length : Int) - 1 + l.length ∧
    -(l.length : Int) - 1 + l.length < l.length) by omega)]

theorem pyListGet_neg {α : Type} (l : List α) (i : Int) (h1 : -(l.length : Int) ≤ i)
    (h2 : i ≤ -1) :
    pyListGet l i = some (l.get ⟨(i + l.length).toNat, by omega⟩) := by
  simp only [pyListGet]
  rw [if_pos (show i < 0 by omega)]
  rw [if_pos (show (0 : Int) ≤ i + l.length ∧ i + l.length < l.length by
    constructor <;> omega)]
  exact List.get?_eq_get (by omega)

/-- C4: for every body tree, indexed access at `i ∈ [0, length)` returns a
proxy wrapping the `i`-th matching `wp:inline` node in document order,
while `get(length)` and `get(-length-1)` fail with the `IndexError`
carrying the collection's out-of-range message. -/
theorem C4_get_bounds (body : XmlElem) :
    (∀ i : Nat, ∀ h : i < (inlineLst body).length,
      InlineShapes.getitem body (i : Int) = .ok ⟨(inlineLst body).get ⟨i, h⟩⟩) ∧
      InlineShapes.getitem body ((inlineLst body).length : Int) =
        .error ("inline shape index [" ++ toString ((inlineLst body).length : Int) ++
          "] out of range") ∧
      InlineShapes.getitem body (-((inlineLst body).length : Int) - 1) =
        .error ("inline shape index [" ++
          toString (-((inlineLst body).length : Int) - 1) ++ "] out of range") := by
  refine ⟨?_, ?_, ?_⟩
  · intro i h
    rw [InlineShapes.getitem, pyListGet_nat (inlineLst body) i h]
  · rw [InlineShapes.getitem, pyListGet_oob_hi]
  · rw [InlineShapes.getitem, pyListGet_oob_lo]

/-- C4 witness: a body with exactly one inline graphic; index 0 succeeds,
index 1 and index -2 raise the out-of-range error. -/
theorem C4_witness :
    InlineShapes.getitem (XmlElem.node "w:body" [.node "w:p" [.node "w:r"
        [.node "w:drawing" [.node "wp:inline" []]]]]) 0 =
      .ok ⟨.node "wp:inline" []⟩ ∧
      InlineShapes.getitem (XmlElem.node "w:body" [.node "w:p" [.node "w:r"
          [.node "w:drawing" [.node "wp:inline" []]]]]) 1 =
        .error "inline shape index [1] out of range" ∧
      InlineShapes.getitem (XmlElem.node "w:body" [.node "w:p" [.node "w:r"
          [.node "w:drawing" [.node "wp:inline" []]]]]) (-2) =
        .error "inline shape index [-2] out of range" := by
  have h := C4_get_bounds (XmlElem.node "w:body" [.node "w:p" [.node "w:r"
    [.node "w:drawing" [.node "wp:inline" []]]]])
  exact ⟨(h.1 0 (by decide)).trans (by rfl), h.2.1.trans (by rfl), h.2.2.trans (by rfl)⟩

/-- C10: for every body tree with `n > 0` matches and every integer
`-n ≤ i ≤ -1`, indexed access succeeds and wraps the `(n+i)`-th matching
node, mirroring Python negative indexing. -/
theorem C10_negative_index (body : XmlElem) (i : Int)
    (h1 : -((inlineLst body).length : Int) ≤ i) (h2 : i ≤ -1) :
    InlineShapes.getitem body i =
      .ok ⟨(inlineLst body).get ⟨(i + (inlineLst body).length).toNat, by omega⟩⟩ := by
  rw [InlineShapes.getitem, pyListGet_neg (inlineLst body) i h1 h2]

/-- C10 witness: on a body with one inline graphic, `get(-1)` returns the
proxy of the last (only) match. -/
theorem C10_witness :
    InlineShapes.getitem (XmlElem.node "w:body" [.node "w:p" [.node "w:r"
        [.node "w:drawing" [.node "wp:inline" []]]]]) (-1) =
      .ok ⟨.node "wp:inline" []⟩ :=
  (C10_negative_index (XmlElem.node "w:body" [.node "w:p" [.node "w:r"
    [.node "w:drawing" [.node "wp:inline" []]]]]) (-1) (by decide) (by decide)).trans (by rfl)
